import Mathlib

/-!
Verification of the client-side list-synchronization and selection engine of
the tag-repo application.  The definitions below are shallow embeddings of the
TypeScript sources: `src/lib/api/selection.ts` (selection engine),
`src/lib/api/index.ts` (query watcher and push-event handlers),
`src/lib/api/items.ts` (item cache and query wrapper), and
`src/components/ItemList.vue` (viewport windower).

Item identifiers and list positions are JavaScript numbers used as integers;
they are modelled as `Int`.  Thrown exceptions are modelled with `Option`
(`none` = throw).  Asynchronous handlers are modelled by splitting them at
their `await` points into explicit events on an explicit state.
-/

namespace TagRepo

/-! ## Selection engine (`src/lib/api/selection.ts`) -/

/-- The `Selection` union type: `RangeSelection {rootIndex, extendToIndex}`
or `SeparateSelection {indexes, lastToggledIndex}`. -/
inductive Selection where
  | range (rootIndex extendToIndex : Int)
  | separate (indexes : List Int) (lastToggledIndex : Int)
  deriving DecidableEq, Repr

/-- The JS loop `for (let i = small; i <= large; i++) indexes.push(i)`:
the list `[small, small+1, ..., large]`, empty when `large < small`. -/
def intRange (small large : Int) : List Int :=
  (List.range (large - small + 1).toNat).map (fun (k : Nat) => small + (k : Int))

/-- `getRangeMinMax`: the minimum and maximum index (inclusive) of a range
selection, as an ordered pair. -/
def getRangeMinMax (rootIndex extendToIndex : Int) : Int × Int :=
  if rootIndex < extendToIndex then (rootIndex, extendToIndex)
  else (extendToIndex, rootIndex)

/-- `rangeToArray`: the list of list indexes covered by a range selection. -/
def rangeToArray (rootIndex extendToIndex : Int) : List Int :=
  intRange (getRangeMinMax rootIndex extendToIndex).1
    (getRangeMinMax rootIndex extendToIndex).2

/-- The computed `selectedIndexes`: the derived list of selected positions.
The selection slot `state.itemIdSelection` is nullable, hence `Option`. -/
def selectedIndexes : Option Selection → List Int
  | none => []
  | some (.range r e) => rangeToArray r e
  | some (.separate idxs _) => idxs

/-- The computed `selectedCount`. -/
def selectedCount (sel : Option Selection) : Nat :=
  (selectedIndexes sel).length

/-- `contains(index)`: membership test on the current selection. -/
def containsIdx (sel : Option Selection) (index : Int) : Bool :=
  match sel with
  | none => false
  | some (.range r e) =>
      decide ((getRangeMinMax r e).1 ≤ index ∧ index ≤ (getRangeMinMax r e).2)
  | some (.separate idxs _) => idxs.contains index

/-- `isolate(index)`: select a single item, clearing all other selections. -/
def isolate (index : Int) : Option Selection :=
  some (.separate [index] index)

/-- `add(index)`.  Throws (`none`) when the index is already selected. -/
def add (sel : Option Selection) (index : Int) : Option (Option Selection) :=
  match sel with
  | none => some (isolate index)
  | some s =>
      if containsIdx (some s) index then none
      else some (some (.separate (selectedIndexes (some s) ++ [index]) index))

/-- The body of the `addTo` discrete-branch loop: push an index onto the
selection's array only when `indexOf` does not find it there already. -/
def pushNew (acc : List Int) (i : Int) : List Int :=
  if acc.contains i then acc else acc ++ [i]

/-- `addTo(endIndex)`: extend-and-merge selection (shift+ctrl click). -/
def addTo (sel : Option Selection) (endIndex : Int) : Option Selection :=
  match sel with
  | none => some (.range 0 endIndex)
  | some (.range r e) =>
      let small := (getRangeMinMax r e).1
      let large := (getRangeMinMax r e).2
      let indexes := rangeToArray r e
      let indexes :=
        if endIndex < small then indexes ++ intRange endIndex (small - 1)
        else if endIndex > large then indexes ++ intRange (large + 1) endIndex
        else indexes
      some (.separate indexes endIndex)
  | some (.separate idxs lastToggled) =>
      let small := if lastToggled > endIndex then endIndex else lastToggled
      let large := if lastToggled > endIndex then lastToggled else endIndex
      let idxs := (intRange small large).foldl pushNew idxs
      some (.separate idxs endIndex)

/-- `remove(index)`.  Throws (`none`) when there is no active selection or the
index is not selected. -/
def removeSel (sel : Option Selection) (index : Int) :
    Option (Option Selection) :=
  match sel with
  | none => none
  | some (.range r e) =>
      let small := (getRangeMinMax r e).1
      let large := (getRangeMinMax r e).2
      if small ≤ index ∧ index ≤ large then
        some (some (.separate ((intRange small large).filter (fun i => i ≠ index)) index))
      else none
  | some (.separate idxs _) =>
      if idxs.contains index then
        some (some (.separate (idxs.erase index) index))
      else none

/-- `extendTo(index)`: replace-extend from the anchor (shift-click). -/
def extendTo (sel : Option Selection) (index : Int) : Option Selection :=
  match sel with
  | none => some (.range 0 index)
  | some (.range r _) => some (.range r index)
  | some (.separate _ lastToggled) => some (.range lastToggled index)

/-- `clear()`. -/
def clearSel : Option Selection := none

/-- `isolateDown()`: keyboard "down".  Reads `state.itemIds` for the length. -/
def isolateDown (itemIds : List Int) (sel : Option Selection) :
    Option Selection :=
  if itemIds.length = 0 then sel
  else
    let maxIndex : Int := (itemIds.length : Int) - 1
    match sel with
    | none => isolate 0
    | some (.range _ e) => isolate (min (e + 1) maxIndex)
    | some (.separate _ lastToggled) => isolate (min (lastToggled + 1) maxIndex)

/-- `isolateUp()`: keyboard "up". -/
def isolateUp (itemIds : List Int) (sel : Option Selection) :
    Option Selection :=
  if itemIds.length = 0 then sel
  else
    let maxIndex : Int := (itemIds.length : Int) - 1
    match sel with
    | none => isolate maxIndex
    | some (.range _ e) => isolate (max (e - 1) 0)
    | some (.separate _ lastToggled) => isolate (max (lastToggled - 1) 0)

/-- `focusedIndex()`: the "focused" position used by keyboard navigation. -/
def focusedIndex (itemIds : List Int) (sel : Option Selection) : Option Int :=
  if itemIds.length = 0 then none
  else
    match sel with
    | none => none
    | some (.range _ e) => some e
    | some (.separate _ lastToggled) => some lastToggled

/-! ## Viewport windower (`src/components/ItemList.vue`, `indexRangeToRender`) -/

/-- `Math.floor(a / b)` on integers with `b > 0`: floor division. -/
def jsFloorDiv (a b : Int) : Int := Int.fdiv a b

/-- `Math.ceil(a / b)` on integers with `b > 0`: ceiling division. -/
def jsCeilDiv (a b : Int) : Int := -(Int.fdiv (-a) b)

/-- `indexRangeToRender`: the half-open window `[startIndex, endIndex)` of the
item list that must be rendered.  In the component `preloadPadding` is
`itemHeight * 10`; it is kept as a parameter here.  `itemCount` is
`state.itemIds.length`. -/
def indexRangeToRender (scrollTop viewHeight itemHeight preloadPadding : Int)
    (itemCount : Nat) : Int × Int :=
  let renderTop := scrollTop - preloadPadding
  let renderBottom := scrollTop + viewHeight + preloadPadding
  let itemsBeforeTop := jsFloorDiv renderTop itemHeight
  let itemsUntilBottom := jsCeilDiv renderBottom itemHeight
  let startIndex := max (itemsBeforeTop - 1) 0
  let endIndex := min itemsUntilBottom (itemCount : Int)
  (startIndex, endIndex)

/-! ## Application state and handlers (`src/lib/api/index.ts`,
`src/lib/api/items.ts`) -/

/-- An item detail record, reduced to an opaque payload: the claims under
verification only track which cache entries exist and whether they changed. -/
abbrev ItemDetails := Nat

/-- The slice of `AppState` the verified handlers touch: the result list
`itemIds`, the selection, the item detail cache (an association list keyed by
item id), and the `queryIsInvalid` flag. -/
structure AppState where
  itemIds : List Int
  itemIdSelection : Option Selection
  itemCache : List (Int × ItemDetails)
  queryIsInvalid : Bool
  deriving DecidableEq, Repr

/-- `clearItemCache()`: `state.itemCache = {}`. -/
def clearItemCache (st : AppState) : AppState := { st with itemCache := [] }

/-- `queryItemIds(query)`: forwards the backend outcome (`some ids` = resolved
id list, `none` = rejected with a query-parse error), setting
`state.queryIsInvalid` to `false` on success and `true` on failure before
rethrowing.  Returns the updated state and the forwarded outcome. -/
def queryItemIds (st : AppState) (outcome : Option (List Int)) :
    AppState × Option (List Int) :=
  match outcome with
  | some ids => ({ st with queryIsInvalid := false }, some ids)
  | none => ({ st with queryIsInvalid := true }, none)

/-- The body of `watch(() => state.query, ...)` for a single run whose awaited
`queryItemIds` call produces `outcome`.  The returned `Bool` is `true` when the
run ends with an uncaught exception (the handler has no `try`/`catch`, so a
rejection of `queryItemIds` escapes it and the statements after the `await`
never run). -/
def queryChangedHandler (st : AppState) (outcome : Option (List Int)) :
    AppState × Bool :=
  match queryItemIds st outcome with
  | (st1, none) => (st1, true)
  | (st1, some newItems) =>
      ({ st1 with itemIdSelection := clearSel, itemCache := [],
                  itemIds := newItems }, false)

/-- The `listen("item-removed", ...)` handler: splice the item id out of
`state.itemIds` if present (`indexOf` / `splice(index, 1)`), then attempt
`selection.remove(evt.id)` — note the argument is the event's id, not a list
position — swallowing any exception.  `List.indexOf` returns the list length
(rather than JavaScript's `-1`) when the element is absent, so the guard
compares against the length. -/
def itemRemovedHandler (st : AppState) (itemId evtId : Int) : AppState :=
  let index := st.itemIds.indexOf itemId
  let newIds :=
    if index = st.itemIds.length then st.itemIds else st.itemIds.eraseIdx index
  let newSel :=
    match removeSel st.itemIdSelection evtId with
    | none => st.itemIdSelection
    | some sel => sel
  { st with itemIds := newIds, itemIdSelection := newSel }

/-! ## Query watcher as an event system (`src/lib/api/index.ts`)

The query watcher body is `async`: it awaits `queryItemIds(state.query)` and
then applies the result.  Runs of the handler interleave on the event loop, so
the watcher is modelled as two events on an explicit state: issuing a query
change (which starts a run and records the query text the run captured), and a
pending run's backend response arriving (which executes the rest of that
run's body).  `backend` maps query text to the id list the backend returns. -/

structure WatcherState where
  query : String
  itemIds : List Int
  itemIdSelection : Option Selection
  itemCache : List (Int × ItemDetails)
  pendingQueries : List String
  deriving DecidableEq, Repr

/-- A query change: `state.query` is set and the watcher fires, calling
`queryItemIds(state.query)`; the run is now pending on the backend. -/
def issueQuery (st : WatcherState) (q : String) : WatcherState :=
  { st with query := q, pendingQueries := st.pendingQueries ++ [q] }

/-- The backend response for the `i`-th pending run arrives: the rest of that
run's body executes — `selection.clear()`, `clearItemCache()`,
`state.itemIds = newItems` — with no comparison of the run's query text
against the current `state.query`. -/
def resolveQuery (backend : String → List Int) (st : WatcherState) (i : Nat) :
    WatcherState :=
  match st.pendingQueries.get? i with
  | none => st
  | some q =>
      { st with itemIdSelection := clearSel, itemCache := [],
                itemIds := backend q,
                pendingQueries := st.pendingQueries.eraseIdx i }

/-! ## Item detail fetching (`requestItemToBeFetched` in the items module)

`requestItemToBeFetched(id)` checks `state.itemCache[id] === undefined` and,
if so, awaits `ffi.getItemDetails(id)` and stores the result.  The check and
the store are separated by the `await`, so the call is modelled as two events:
the synchronous prefix up to the `await` (which issues the backend fetch) and
the response arriving (which writes the cache).  `inflight` lists the item ids
of the outstanding backend fetches, in issue order. -/

structure FetchState where
  itemCache : List (Int × ItemDetails)
  inflight : List Int
  deriving DecidableEq, Repr

/-- A `requestItemToBeFetched(id)` call runs up to its `await`: if the cache
has no entry for `id`, a backend fetch for `id` is issued. -/
def requestItemToBeFetchedCall (st : FetchState) (id : Int) : FetchState :=
  if (st.itemCache.lookup id).isNone then
    { st with inflight := st.inflight ++ [id] }
  else st

/-- The `i`-th outstanding fetch resolves with `details`:
`state.itemCache[id] = details` runs. -/
def fetchResolves (st : FetchState) (i : Nat) (details : ItemDetails) :
    FetchState :=
  match st.inflight.get? i with
  | none => st
  | some id =>
      { itemCache := (id, details) :: st.itemCache,
        inflight := st.inflight.eraseIdx i }

/-! ## Sequences of selection operations -/

/-- One call to the selection engine, for stating properties of call
sequences. -/
inductive SelOp where
  | isolateOp (position : Int)
  | addOp (position : Int)
  | removeOp (position : Int)
  | extendToOp (position : Int)
  | addToOp (position : Int)
  deriving DecidableEq, Repr

/-- The position argument of a selection call. -/
def SelOp.arg : SelOp → Int
  | .isolateOp p => p
  | .addOp p => p
  | .removeOp p => p
  | .extendToOp p => p
  | .addToOp p => p

/-- Apply one selection call; `none` means the call threw. -/
def applySelOp (sel : Option Selection) : SelOp → Option (Option Selection)
  | .isolateOp p => some (isolate p)
  | .addOp p => add sel p
  | .removeOp p => removeSel sel p
  | .extendToOp p => some (extendTo sel p)
  | .addToOp p => some (addTo sel p)

/-- Run a sequence of selection calls from a starting selection; `none` means
some call in the sequence threw. -/
def runSelOps (sel : Option Selection) : List SelOp → Option (Option Selection)
  | [] => some sel
  | op :: ops =>
      match applySelOp sel op with
      | none => none
      | some sel' => runSelOps sel' ops

/-! ## Basic lemmas about the selection primitives -/

theorem mem_intRange {i small large : Int} :
    i ∈ intRange small large ↔ small ≤ i ∧ i ≤ large := by
  simp only [intRange, List.mem_map, List.mem_range]
  constructor
  · rintro ⟨k, hk, rfl⟩
    omega
  · rintro ⟨h1, h2⟩
    exact ⟨(i - small).toNat, by omega, by omega⟩

theorem nodup_intRange (small large : Int) : (intRange small large).Nodup := by
  unfold intRange
  refine List.Nodup.map ?_ (List.nodup_range _)
  intro a b h
  have h2 : small + (a : Int) = small + (b : Int) := h
  omega

theorem getRangeMinMax_cases (r e : Int) :
    ((getRangeMinMax r e).1 = r ∧ (getRangeMinMax r e).2 = e) ∨
    ((getRangeMinMax r e).1 = e ∧ (getRangeMinMax r e).2 = r) := by
  unfold getRangeMinMax
  split
  · exact Or.inl ⟨rfl, rfl⟩
  · exact Or.inr ⟨rfl, rfl⟩

theorem getRangeMinMax_le (r e : Int) :
    (getRangeMinMax r e).1 ≤ (getRangeMinMax r e).2 := by
  unfold getRangeMinMax
  split <;> omega

theorem mem_rangeToArray {i r e : Int} :
    i ∈ rangeToArray r e ↔
      (getRangeMinMax r e).1 ≤ i ∧ i ≤ (getRangeMinMax r e).2 :=
  mem_intRange

theorem nodup_rangeToArray (r e : Int) : (rangeToArray r e).Nodup :=
  nodup_intRange _ _

theorem not_mem_of_not_containsIdx {sel : Option Selection} {p : Int}
    (h : ¬ containsIdx sel p = true) : p ∉ selectedIndexes sel := by
  match sel with
  | none => simp [selectedIndexes]
  | some (.range r e) =>
      simp only [containsIdx, decide_eq_true_eq] at h
      simp only [selectedIndexes]
      rw [mem_rangeToArray]
      exact h
  | some (.separate idxs lt) =>
      simp only [containsIdx, List.elem_iff] at h
      simpa [selectedIndexes] using h

theorem foldl_pushNew_wf (P : Int → Prop) :
    ∀ (l acc : List Int), acc.Nodup → (∀ x ∈ acc, P x) → (∀ x ∈ l, P x) →
      (l.foldl pushNew acc).Nodup ∧ ∀ x ∈ l.foldl pushNew acc, P x := by
  intro l
  induction l with
  | nil =>
      intro acc h1 h2 _
      exact ⟨h1, h2⟩
  | cons x xs ih =>
      intro acc h1 h2 h3
      simp only [List.foldl_cons]
      have hxs : ∀ y ∈ xs, P y := fun y hy => h3 y (List.mem_cons_of_mem _ hy)
      by_cases hx : acc.contains x = true
      · rw [pushNew, if_pos hx]
        exact ih acc h1 h2 hxs
      · rw [pushNew, if_neg hx]
        refine ih _ ?_ ?_ hxs
        · have hx' : x ∉ acc := fun hmem => hx (List.elem_iff.mpr hmem)
          refine List.Nodup.append h1 (List.nodup_singleton x) ?_
          intro a ha hamem
          rw [List.mem_singleton] at hamem
          exact hx' (hamem ▸ ha)
        · intro y hy
          rcases List.mem_append.mp hy with h | h
          · exact h2 y h
          · rw [List.mem_singleton] at h
            exact h ▸ h3 x (List.mem_cons_self _ _)

theorem mem_foldl_pushNew :
    ∀ (l acc : List Int) (x : Int), x ∈ acc ∨ x ∈ l →
      x ∈ l.foldl pushNew acc := by
  intro l
  induction l with
  | nil =>
      intro acc x hx
      simpa using hx
  | cons y ys ih =>
      intro acc x hx
      simp only [List.foldl_cons]
      by_cases hy : acc.contains y = true
      · rw [pushNew, if_pos hy]
        rcases hx with h | h
        · exact ih acc x (Or.inl h)
        · rcases List.mem_cons.mp h with h | h
          · subst h
            exact ih acc x (Or.inl (List.elem_iff.mp hy))
          · exact ih acc x (Or.inr h)
      · rw [pushNew, if_neg hy]
        rcases hx with h | h
        · exact ih _ x (Or.inl (List.mem_append_left _ h))
        · rcases List.mem_cons.mp h with h | h
          · subst h
            exact ih _ x (Or.inl (List.mem_append_right _ (List.mem_singleton_self _)))
          · exact ih _ x (Or.inr h)

/-! ## Well-formedness of a selection over a result list of length `len` -/

/-- All positions a selection stores — range endpoints, discrete members, the
last-toggled anchor — are valid indices of a result list of length `len`, and
a discrete index array has no duplicates. -/
def selWF (len : Int) : Option Selection → Prop
  | none => True
  | some (.range r e) => 0 ≤ r ∧ r < len ∧ 0 ≤ e ∧ e < len
  | some (.separate idxs lastToggled) =>
      (∀ i ∈ idxs, 0 ≤ i ∧ i < len) ∧ 0 ≤ lastToggled ∧ lastToggled < len ∧
        idxs.Nodup

theorem selectedIndexes_of_selWF {len : Int} {sel : Option Selection}
    (h : selWF len sel) :
    (selectedIndexes sel).Nodup ∧
      ∀ i ∈ selectedIndexes sel, 0 ≤ i ∧ i < len := by
  match sel with
  | none => simp [selectedIndexes]
  | some (.range r e) =>
      obtain ⟨h1, h2, h3, h4⟩ := h
      simp only [selectedIndexes]
      refine ⟨nodup_rangeToArray r e, fun i hi => ?_⟩
      rw [mem_rangeToArray] at hi
      rcases getRangeMinMax_cases r e with ⟨hf, hs⟩ | ⟨hf, hs⟩ <;>
        rw [hf, hs] at hi <;> omega
  | some (.separate idxs lastToggled) =>
      obtain ⟨h1, _, _, h4⟩ := h
      exact ⟨h4, h1⟩

theorem selWF_isolate {len p : Int} (h0 : 0 ≤ p) (h1 : p < len) :
    selWF len (isolate p) := by
  refine ⟨?_, h0, h1, List.nodup_singleton p⟩
  intro i hi
  rw [List.mem_singleton] at hi
  subst hi
  exact ⟨h0, h1⟩

theorem selWF_add {len p : Int} {sel sel' : Option Selection}
    (h : selWF len sel) (h0 : 0 ≤ p) (h1 : p < len)
    (heq : add sel p = some sel') : selWF len sel' := by
  match sel with
  | none =>
      simp only [add, Option.some.injEq] at heq
      exact heq ▸ selWF_isolate h0 h1
  | some s =>
      simp only [add] at heq
      by_cases hc : containsIdx (some s) p = true
      · rw [if_pos hc] at heq
        exact absurd heq (by simp)
      · rw [if_neg hc] at heq
        simp only [Option.some.injEq] at heq
        subst heq
        have hw := selectedIndexes_of_selWF h
        have hp : p ∉ selectedIndexes (some s) := not_mem_of_not_containsIdx hc
        refine ⟨?_, h0, h1, ?_⟩
        · intro i hi
          rcases List.mem_append.mp hi with hm | hm
          · exact hw.2 i hm
          · rw [List.mem_singleton] at hm
            subst hm
            exact ⟨h0, h1⟩
        · refine List.Nodup.append hw.1 (List.nodup_singleton p) ?_
          intro a ha hamem
          rw [List.mem_singleton] at hamem
          exact hp (hamem ▸ ha)

theorem selWF_addTo {len p : Int} {sel : Option Selection}
    (h : selWF len sel) (h0 : 0 ≤ p) (h1 : p < len) :
    selWF len (addTo sel p) := by
  match sel with
  | none =>
      exact ⟨by omega, by omega, h0, h1⟩
  | some (.range r e) =>
      obtain ⟨hr0, hr1, he0, he1⟩ := h
      have hmm := getRangeMinMax_cases r e
      have hle := getRangeMinMax_le r e
      have hsmall : 0 ≤ (getRangeMinMax r e).1 := by rcases hmm with ⟨hf, _⟩ | ⟨hf, _⟩ <;> omega
      have hlarge : (getRangeMinMax r e).2 < len := by rcases hmm with ⟨_, hs⟩ | ⟨_, hs⟩ <;> omega
      simp only [addTo]
      refine ⟨?_, h0, h1, ?_⟩
      · intro i hi
        split at hi
        · rcases List.mem_append.mp hi with hm | hm
          · rw [mem_rangeToArray] at hm
            omega
          · rw [mem_intRange] at hm
            omega
        · split at hi
          · rcases List.mem_append.mp hi with hm | hm
            · rw [mem_rangeToArray] at hm
              omega
            · rw [mem_intRange] at hm
              omega
          · rw [mem_rangeToArray] at hi
            omega
      · split
        · refine List.Nodup.append (nodup_rangeToArray r e) (nodup_intRange _ _) ?_
          intro a ha hb
          rw [mem_rangeToArray] at ha
          rw [mem_intRange] at hb
          omega
        · split
          · refine List.Nodup.append (nodup_rangeToArray r e) (nodup_intRange _ _) ?_
            intro a ha hb
            rw [mem_rangeToArray] at ha
            rw [mem_intRange] at hb
            omega
          · exact nodup_rangeToArray r e
  | some (.separate idxs lastToggled) =>
      obtain ⟨hall, hlt0, hlt1, hnd⟩ := h
      simp only [addTo]
      have hrange : ∀ x ∈ intRange (if lastToggled > p then p else lastToggled)
          (if lastToggled > p then lastToggled else p), 0 ≤ x ∧ x < len := by
        intro x hx
        rw [mem_intRange] at hx
        rcases hx with ⟨hx1, hx2⟩
        constructor
        · split at hx1 <;> omega
        · split at hx2 <;> omega
      have hf := foldl_pushNew_wf (fun x => 0 ≤ x ∧ x < len) _ idxs hnd hall hrange
      exact ⟨hf.2, h0, h1, hf.1⟩

theorem selWF_removeSel {len p : Int} {sel sel' : Option Selection}
    (h : selWF len sel) (h0 : 0 ≤ p) (h1 : p < len)
    (heq : removeSel sel p = some sel') : selWF len sel' := by
  match sel with
  | none => exact absurd heq (by simp [removeSel])
  | some (.range r e) =>
      simp only [removeSel] at heq
      split at heq
      · simp only [Option.some.injEq] at heq
        subst heq
        obtain ⟨hr0, hr1, he0, he1⟩ := h
        have hmm := getRangeMinMax_cases r e
        refine ⟨?_, h0, h1, List.Nodup.filter _ (nodup_intRange _ _)⟩
        intro i hi
        have hi' := List.mem_of_mem_filter hi
        rw [mem_intRange] at hi'
        rcases hmm with ⟨hf, hs⟩ | ⟨hf, hs⟩ <;> rw [hf, hs] at hi' <;> omega
      · exact absurd heq (by simp)
  | some (.separate idxs lastToggled) =>
      simp only [removeSel] at heq
      split at heq
      · simp only [Option.some.injEq] at heq
        subst heq
        obtain ⟨hall, _, _, hnd⟩ := h
        refine ⟨?_, h0, h1, List.Nodup.erase p hnd⟩
        intro i hi
        exact hall i (List.erase_subset _ _ hi)
      · exact absurd heq (by simp)

theorem selWF_extendTo {len p : Int} {sel : Option Selection}
    (h : selWF len sel) (h0 : 0 ≤ p) (h1 : p < len) :
    selWF len (extendTo sel p) := by
  match sel with
  | none => exact ⟨by omega, by omega, h0, h1⟩
  | some (.range r e) =>
      obtain ⟨hr0, hr1, _, _⟩ := h
      exact ⟨hr0, hr1, h0, h1⟩
  | some (.separate idxs lastToggled) =>
      obtain ⟨_, hlt0, hlt1, _⟩ := h
      exact ⟨hlt0, hlt1, h0, h1⟩

theorem selWF_applySelOp {len : Int} {sel sel' : Option Selection} {op : SelOp}
    (h : selWF len sel) (harg : 0 ≤ op.arg ∧ op.arg < len)
    (heq : applySelOp sel op = some sel') : selWF len sel' := by
  match op with
  | .isolateOp p =>
      simp only [applySelOp, Option.some.injEq] at heq
      exact heq ▸ selWF_isolate harg.1 harg.2
  | .addOp p => exact selWF_add h harg.1 harg.2 heq
  | .removeOp p => exact selWF_removeSel h harg.1 harg.2 heq
  | .extendToOp p =>
      simp only [applySelOp, Option.some.injEq] at heq
      exact heq ▸ selWF_extendTo h harg.1 harg.2
  | .addToOp p =>
      simp only [applySelOp, Option.some.injEq] at heq
      exact heq ▸ selWF_addTo h harg.1 harg.2

theorem selWF_runSelOps {len : Int} :
    ∀ (ops : List SelOp) (sel sel' : Option Selection), selWF len sel →
      (∀ op ∈ ops, 0 ≤ op.arg ∧ op.arg < len) →
      runSelOps sel ops = some sel' → selWF len sel' := by
  intro ops
  induction ops with
  | nil =>
      intro sel sel' h _ heq
      simp only [runSelOps, Option.some.injEq] at heq
      exact heq ▸ h
  | cons op ops ih =>
      intro sel sel' h hargs heq
      simp only [runSelOps] at heq
      match hstep : applySelOp sel op with
      | none => rw [hstep] at heq; exact absurd heq (by simp)
      | some sel1 =>
          rw [hstep] at heq
          exact ih sel1 sel'
            (selWF_applySelOp h (hargs op (List.mem_cons_self _ _)) hstep)
            (fun o ho => hargs o (List.mem_cons_of_mem _ ho)) heq

theorem removeSel_shape {sel sel' : Option Selection} {p : Int}
    (h : removeSel sel p = some sel') :
    ∃ idxs, sel' = some (.separate idxs p) ∧
      ∀ i ∈ idxs, i ∈ selectedIndexes sel := by
  match sel with
  | none => exact absurd h (by simp [removeSel])
  | some (.range r e) =>
      simp only [removeSel] at h
      split at h
      · simp only [Option.some.injEq] at h
        subst h
        refine ⟨_, rfl, ?_⟩
        intro i hi
        simp only [selectedIndexes]
        rw [mem_rangeToArray]
        have hm := List.mem_of_mem_filter hi
        rw [mem_intRange] at hm
        exact hm
      · exact absurd h (by simp)
  | some (.separate idxs lastToggled) =>
      simp only [removeSel] at h
      split at h
      · simp only [Option.some.injEq] at h
        subst h
        refine ⟨_, rfl, ?_⟩
        intro i hi
        simp only [selectedIndexes]
        exact List.erase_subset _ _ hi
      · exact absurd h (by simp)

/-! ## The claims -/

/-- Backend model for the stale-query scenario: query text "a" resolves to the
item list `[1]`, any other query text to `[2]`. -/
def scenarioBackend : String → List Int := fun q => if q = "a" then [1] else [2]

/-- The stale-query run: from an idle state, a query "a" is issued, then —
before it resolves — a query "b" is issued; then the backend response for the
first (superseded) run arrives. -/
def staleRun : WatcherState :=
  resolveQuery scenarioBackend
    (issueQuery (issueQuery ⟨"", [], none, [], []⟩ "a") "b") 0

/-- Claim C1.  The claim states that a superseded query's result is never
applied to the Result List.  The query watcher has no staleness guard: when
the superseded query "a" resolves after query "b" was issued, its result `[1]`
is written to `state.itemIds`, so the Result List does not equal the result of
the last query issued.  This theorem evaluates the watcher model on that
interleaving, exhibiting the violation. -/
theorem stale_query_result_applied :
    staleRun.query = "b" ∧
    staleRun.itemIds = [1] ∧
    scenarioBackend staleRun.query = [2] ∧
    staleRun.itemIds ≠ scenarioBackend staleRun.query := by
  decide

/-- Claim C2, counterexample.  Removing the last remaining member of the
discrete selection `{indexes: [3], lastToggledIndex: 3}` leaves the stored
state as a discrete selection with an empty index array; it does not collapse
to the empty selection `none` as the claim states. -/
theorem remove_last_discrete_not_collapsed :
    removeSel (some (.separate [3] 3)) 3 = some (some (.separate [] 3)) ∧
    removeSel (some (.separate [3] 3)) 3 ≠ some none := by
  decide

/-- Claim C2, amended.  After `remove(p)` deletes the last remaining member of
a discrete selection, the stored selection is a discrete selection with an
empty index array (its derived list of selected positions is empty), not the
empty selection `none`. -/
theorem remove_last_discrete_empty_persists (p lastToggled : Int) :
    removeSel (some (.separate [p] lastToggled)) p
      = some (some (.separate [] p)) ∧
    selectedIndexes (some (.separate ([] : List Int) p)) = [] := by
  have hc : ([p] : List Int).contains p = true := by simp
  refine ⟨?_, rfl⟩
  simp [removeSel, hc]

/-- Claim C3, counterexample.  At Scenario E's input (`itemCount = 3`,
`scrollOffset = 1000`, `itemSize = 24`, `viewportSize = 100`,
`preloadMargin = 240`) the windower returns `(30, 3)` — an inverted window
with `start > end` — not `(0, 3)` as the claim states: the start bound is
never clamped above by `itemCount`. -/
theorem windower_scenarioE :
    indexRangeToRender 1000 100 24 240 3 = (30, 3) ∧
    ¬ (indexRangeToRender 1000 100 24 240 3).1
        ≤ (indexRangeToRender 1000 100 24 240 3).2 ∧
    indexRangeToRender 1000 100 24 240 3 ≠ (0, 3) := by
  decide

/-- Claim C3, amended.  Each bound is clamped on one side only: `start` is
clamped below by `0` (but not above by `itemCount`), and `end` is clamped
above by `itemCount` (and is nonnegative whenever the pixel inputs are
nonnegative); `start ≤ end` can fail, as the counterexample shows. -/
theorem windower_clamps_each_side
    (scrollTop viewHeight itemHeight preloadPadding : Int) (itemCount : Nat)
    (h1 : 0 ≤ scrollTop) (h2 : 0 ≤ viewHeight) (h3 : 0 ≤ preloadPadding)
    (h4 : 0 < itemHeight) :
    0 ≤ (indexRangeToRender scrollTop viewHeight itemHeight preloadPadding
          itemCount).1 ∧
    0 ≤ (indexRangeToRender scrollTop viewHeight itemHeight preloadPadding
          itemCount).2 ∧
    (indexRangeToRender scrollTop viewHeight itemHeight preloadPadding
          itemCount).2 ≤ (itemCount : Int) := by
  simp only [indexRangeToRender]
  refine ⟨le_max_right _ _, ?_, min_le_right _ _⟩
  refine le_min ?_ (Int.natCast_nonneg _)
  simp only [jsCeilDiv]
  have hrb : 0 ≤ scrollTop + viewHeight + preloadPadding := by omega
  have key : Int.fdiv (-(scrollTop + viewHeight + preloadPadding)) itemHeight ≤ 0 := by
    rcases eq_or_lt_of_le hrb with heq | hlt
    · rw [← heq]
      simp [Int.zero_fdiv]
    · exact le_of_lt (Int.fdiv_neg' (by omega) h4)
  omega

/-- Claim C3, amended, witness at Scenario E's input. -/
theorem windower_clamps_each_side_witness :
    0 ≤ (indexRangeToRender 1000 100 24 240 3).1 :=
  (windower_clamps_each_side 1000 100 24 240 3 (by decide) (by decide)
    (by decide) (by decide)).1

/-- Claim C4, counterexample.  When the backend rejects the query, the
rejection is rethrown by `queryItemIds` and the query watcher has no
`try`/`catch`, so the exception does propagate out of the query-change
handler (the second component `true` records the escaped exception),
contradicting the claim's "no exception propagates" part. -/
theorem query_failure_exception_escapes :
    ¬ (queryChangedHandler ⟨[7], some (.separate [0] 0), [(7, 1)], false⟩
        none).2 = false := by
  decide

/-- Claim C4, amended.  On query failure the Result List keeps its previous
value, the invalid-query flag is set, the Selection is not cleared — but the
exception propagates out of the handler uncaught.  On success the flag is
reset, and the Result List is replaced (with the selection and the item cache
cleared). -/
theorem query_failure_is_local (st : AppState) :
    (queryChangedHandler st none).1.itemIds = st.itemIds ∧
    (queryChangedHandler st none).1.queryIsInvalid = true ∧
    (queryChangedHandler st none).1.itemIdSelection = st.itemIdSelection ∧
    (queryChangedHandler st none).1.itemCache = st.itemCache ∧
    (queryChangedHandler st none).2 = true ∧
    ∀ ids : List Int,
      (queryChangedHandler st (some ids)).1.itemIds = ids ∧
      (queryChangedHandler st (some ids)).1.queryIsInvalid = false ∧
      (queryChangedHandler st (some ids)).1.itemIdSelection = none ∧
      (queryChangedHandler st (some ids)).2 = false := by
  exact ⟨rfl, rfl, rfl, rfl, rfl, fun ids => ⟨rfl, rfl, rfl, rfl⟩⟩

/-- Claim C5.  For every sequence of `isolate`/`add`/`remove`/`extendTo`/
`addTo` calls whose position arguments are valid indices of the result list
(length `len`) and that respects the engine's preconditions (so no call
throws), the derived list of selected positions has no duplicates and no
position at or beyond the result list length. -/
theorem selection_positions_invariant (len : Int) (ops : List SelOp)
    (sel' : Option Selection)
    (hops : ∀ op ∈ ops, 0 ≤ op.arg ∧ op.arg < len)
    (hrun : runSelOps none ops = some sel') :
    (selectedIndexes sel').Nodup ∧
      ∀ i ∈ selectedIndexes sel', i < len := by
  have hwf := selWF_runSelOps ops none sel' trivial hops hrun
  have hs := selectedIndexes_of_selWF hwf
  exact ⟨hs.1, fun i hi => (hs.2 i hi).2⟩

/-- Claim C5, witness: a concrete five-call sequence on a list of length 3. -/
theorem selection_positions_invariant_witness :
    (selectedIndexes (some (Selection.range 1 2))).Nodup :=
  (selection_positions_invariant 3
    [.isolateOp 0, .addOp 1, .addToOp 2, .removeOp 1, .extendToOp 2]
    (some (Selection.range 1 2)) (by decide) (by decide)).1

/-- Claim C6.  The item-removed handler removes the item id from the Result
List if present — it computes exactly `erase`, a stable first-occurrence
removal preserving the relative order of the remaining entries (a sublist of
the old list), and a no-op when absent — leaves the Item Detail Cache
untouched, and never position-shifts the Selection: every position selected
after the event was selected before it. -/
theorem item_removed_handler_effect (st : AppState) (itemId evtId : Int) :
    List.Sublist (itemRemovedHandler st itemId evtId).itemIds st.itemIds ∧
    (itemRemovedHandler st itemId evtId).itemIds = st.itemIds.erase itemId ∧
    (itemId ∉ st.itemIds →
      (itemRemovedHandler st itemId evtId).itemIds = st.itemIds) ∧
    (st.itemIds.Nodup →
      itemId ∉ (itemRemovedHandler st itemId evtId).itemIds) ∧
    (itemRemovedHandler st itemId evtId).itemCache = st.itemCache ∧
    ∀ p ∈ selectedIndexes (itemRemovedHandler st itemId evtId).itemIdSelection,
      p ∈ selectedIndexes st.itemIdSelection := by
  have hids : (itemRemovedHandler st itemId evtId).itemIds
      = st.itemIds.erase itemId := by
    simp only [itemRemovedHandler]
    split
    · next hidx =>
        have habs : itemId ∉ st.itemIds := List.indexOf_eq_length.mp hidx
        exact (List.erase_of_not_mem habs).symm
    · next hidx =>
        exact List.eraseIdx_indexOf_eq_erase itemId st.itemIds
  refine ⟨?_, hids, ?_, ?_, rfl, ?_⟩
  · rw [hids]
    exact List.erase_sublist _ _
  · intro habs
    rw [hids]
    exact List.erase_of_not_mem habs
  · intro hnd
    rw [hids]
    intro hmem
    exact absurd rfl (hnd.mem_erase_iff.mp hmem).1
  · intro p hp
    simp only [itemRemovedHandler] at hp
    match hrem : removeSel st.itemIdSelection evtId with
    | none =>
        rw [hrem] at hp
        exact hp
    | some s =>
        rw [hrem] at hp
        obtain ⟨idxs, rfl, hsub⟩ := removeSel_shape hrem
        simp only [selectedIndexes] at hp
        exact hsub p hp

/-- Claim C6, witness: removing id 11 from list `[10, 11, 12]` with a
selection at position 1 and one cached entry. -/
theorem item_removed_handler_effect_witness :
    (itemRemovedHandler ⟨[10, 11, 12], some (.separate [1] 1), [(10, 7)],
      false⟩ 11 99).itemCache
      = (⟨[10, 11, 12], some (.separate [1] 1), [(10, 7)], false⟩
          : AppState).itemCache :=
  (item_removed_handler_effect
    ⟨[10, 11, 12], some (.separate [1] 1), [(10, 7)], false⟩ 11 99).2.2.2.2.1

/-- Claim C7.  The claim states that concurrent repeated detail requests for
the same uncached id coalesce into one outstanding fetch.
`requestItemToBeFetched` only checks the cache, which is not written until a
fetch resolves, so two calls for id 5 that both run before the first backend
response arrives each issue a fetch: two outstanding fetches for the same id,
violating the claim.  This theorem evaluates the model on that
interleaving. -/
theorem duplicate_inflight_fetches :
    (requestItemToBeFetchedCall (requestItemToBeFetchedCall ⟨[], []⟩ 5) 5).inflight
      = [5, 5] ∧
    ((requestItemToBeFetchedCall (requestItemToBeFetchedCall ⟨[], []⟩ 5) 5).inflight.count
      5) = 2 := by
  decide

/-- Claim C8.  Scenario A: on a Result List of length 5, `isolate(1)` then
`extendTo(3)` selects exactly positions `[1, 2, 3]` (a range rooted at 1), and
a further `extendTo(0)` selects exactly positions `[0, 1]`, the root staying
at 1 while the extend endpoint moves to 0. -/
theorem scenarioA_isolate_extendTo :
    ([10, 11, 12, 13, 14] : List Int).length = 5 ∧
    extendTo (isolate 1) 3 = some (.range 1 3) ∧
    selectedIndexes (extendTo (isolate 1) 3) = [1, 2, 3] ∧
    extendTo (extendTo (isolate 1) 3) 0 = some (.range 1 0) ∧
    selectedIndexes (extendTo (extendTo (isolate 1) 3) 0) = [0, 1] := by
  decide

/-- Claim C9, counterexample.  With the two-element list `[10, 11]` and the
discrete selection `{indexes: [0, 1], lastToggledIndex: 1}`, the focused
position is the last position, yet `isolateDown` is not a no-op: it collapses
the selection to the single isolated item `[1]`. -/
theorem isolateDown_at_end_not_noop :
    focusedIndex [10, 11] (some (.separate [0, 1] 1)) = some 1 ∧
    isolateDown [10, 11] (some (.separate [0, 1] 1))
      ≠ some (.separate [0, 1] 1) ∧
    isolateDown [10, 11] (some (.separate [0, 1] 1))
      = some (.separate [1] 1) := by
  decide

/-- Claim C9, amended.  On a non-empty list, when the focused position is the
last position, `isolateDown` keeps the focused position there — it re-isolates
the single item at the last position (so the selection may change shape, but
never moves past the end); symmetrically `isolateUp` at focused position 0
re-isolates position 0. -/
theorem keyboard_nav_clamped (itemIds : List Int) (sel : Option Selection)
    (hne : itemIds ≠ []) :
    (focusedIndex itemIds sel = some ((itemIds.length : Int) - 1) →
      isolateDown itemIds sel = isolate ((itemIds.length : Int) - 1) ∧
      focusedIndex itemIds (isolateDown itemIds sel)
        = some ((itemIds.length : Int) - 1)) ∧
    (focusedIndex itemIds sel = some 0 →
      isolateUp itemIds sel = isolate 0 ∧
      focusedIndex itemIds (isolateUp itemIds sel) = some 0) := by
  have hlen : ¬ itemIds.length = 0 :=
    fun h => hne (List.eq_nil_of_length_eq_zero h)
  constructor
  · intro hfoc
    rcases sel with _ | s
    · rw [focusedIndex, if_neg hlen] at hfoc
      exact absurd hfoc (by simp)
    · rcases s with ⟨r, e⟩ | ⟨idxs, lt⟩
      · rw [focusedIndex, if_neg hlen] at hfoc
        simp only [Option.some.injEq] at hfoc
        have hmin : min (e + 1) ((itemIds.length : Int) - 1)
            = (itemIds.length : Int) - 1 := by omega
        refine ⟨?_, ?_⟩
        · simp only [isolateDown, if_neg hlen, hmin]
        · simp only [isolateDown, if_neg hlen, hmin, isolate, focusedIndex]
      · rw [focusedIndex, if_neg hlen] at hfoc
        simp only [Option.some.injEq] at hfoc
        have hmin : min (lt + 1) ((itemIds.length : Int) - 1)
            = (itemIds.length : Int) - 1 := by omega
        refine ⟨?_, ?_⟩
        · simp only [isolateDown, if_neg hlen, hmin]
        · simp only [isolateDown, if_neg hlen, hmin, isolate, focusedIndex]
  · intro hfoc
    rcases sel with _ | s
    · rw [focusedIndex, if_neg hlen] at hfoc
      exact absurd hfoc (by simp)
    · rcases s with ⟨r, e⟩ | ⟨idxs, lt⟩
      · rw [focusedIndex, if_neg hlen] at hfoc
        simp only [Option.some.injEq] at hfoc
        have hmax : max (e - 1) (0 : Int) = 0 := by omega
        refine ⟨?_, ?_⟩
        · simp only [isolateUp, if_neg hlen, hmax]
        · simp only [isolateUp, if_neg hlen, hmax, isolate, focusedIndex]
      · rw [focusedIndex, if_neg hlen] at hfoc
        simp only [Option.some.injEq] at hfoc
        have hmax : max (lt - 1) (0 : Int) = 0 := by omega
        refine ⟨?_, ?_⟩
        · simp only [isolateUp, if_neg hlen, hmax]
        · simp only [isolateUp, if_neg hlen, hmax, isolate, focusedIndex]

/-- Claim C9, amended, witness. -/
theorem keyboard_nav_clamped_witness :
    isolateDown [10, 11] (some (Selection.separate [0, 1] 1))
      = isolate ((([10, 11] : List Int).length : Int) - 1) :=
  ((keyboard_nav_clamped [10, 11] (some (.separate [0, 1] 1))
    (by decide)).1 (by decide)).1

/-- Claim C10.  Whenever `remove(p)` succeeds, the resulting selection is a
discrete selection whose `lastToggledIndex` is the removed position `p` (in
both the range branch and the discrete branch); consequently a following
`extendTo(q)` produces the range rooted at `p` extending to `q`, and a
following `addTo(q)` fills the whole span between `p` and `q`. -/
theorem remove_records_lastToggled (sel sel' : Option Selection) (p q : Int)
    (h : removeSel sel p = some sel') :
    (∃ idxs, sel' = some (.separate idxs p)) ∧
    extendTo sel' q = some (.range p q) ∧
    ∀ i : Int, min p q ≤ i → i ≤ max p q →
      i ∈ selectedIndexes (addTo sel' q) := by
  obtain ⟨idxs, rfl, -⟩ := removeSel_shape h
  refine ⟨⟨idxs, rfl⟩, rfl, ?_⟩
  intro i h1 h2
  simp only [addTo, selectedIndexes]
  apply mem_foldl_pushNew
  right
  rw [mem_intRange]
  constructor
  · split <;> omega
  · split <;> omega

/-- Claim C10, witness: remove position 2 from the discrete selection
`{[2, 5], lastToggledIndex 5}`, then extend to 4. -/
theorem remove_records_lastToggled_witness :
    extendTo (some (Selection.separate [5] 2)) 4
      = some (Selection.range 2 4) :=
  (remove_records_lastToggled (some (.separate [2, 5] 5))
    (some (.separate [5] 2)) 2 4 (by decide)).2.1

end TagRepo
